import Mathlib

set_option autoImplicit false

namespace Lectev

/-! # Shallow embedding of the lectev dependency-resolution and ordering core

Translated from:
* `src/lib/simulation/external.rs` (the work model),
* `src/lib/simulation/index.rs` (the index builder),
* `src/lib/simulation/rand_topo.rs` (flattening, preparation, randomized topological sort),
* `src/lib/simulation/convert_template.rs` (row-record classification).

Modelling conventions:
* The id newtypes (`WorkItemId`, `WorkGroupId`, `Skill`) wrap `String`; the
  non-empty-string construction guard lives in `new` and is irrelevant to the
  claims below, so ids are modelled as plain strings.
* Rust `HashMap` values are modelled as association lists processed in
  insertion order, with `mapInsert` replacing an existing key in place and
  appending a fresh key at the end, exactly the observable entry semantics of
  `entry`, `insert` and `extend`.  Hash-dependent iteration order is
  nondeterministic in Rust; every claim proved here is order-insensitive.
* Rust `HashSet<&WorkItemId>` appears in two roles.  Flattened dependency
  sets are only ever consumed through iteration/membership, so they are
  modelled as `List WorkItemId` up to membership (the `collect` dedup is
  irrelevant to membership).  The `incoming_links` sets are mutated with
  `remove` and tested for emptiness, so they are modelled as
  `Finset WorkItemId`.
* `estimates` (float payload) and `workers` (dates/floats) are carried by the
  Rust structs but never read by any function verified here; they are omitted
  from the embedded records.
-/

/-- Rust `WorkItemId` from `external.rs`: a string wrapper. -/
abbrev WorkItemId := String

/-- Rust `WorkGroupId` from `external.rs`: a string wrapper. -/
abbrev WorkGroupId := String

/-- Rust `Skill` from `external.rs`: a string wrapper. -/
abbrev Skill := String

/-- Rust `WorkItemOrGroupId` from `external.rs`: a dependency reference naming
either a single work item or an entire group. -/
inductive WorkItemOrGroupId where
  | workItem (id : WorkItemId)
  | workGroup (id : WorkGroupId)
  deriving DecidableEq

/-- Rust `WorkItem` from `external.rs`: a leaf unit of work.  The float-valued
`estimates` field is never read by the index builder, flattener or sorter and
is omitted. -/
structure WorkItem where
  id : WorkItemId
  dependencies : List WorkItemOrGroupId
  skills : List Skill
  deriving DecidableEq

/-- Rust `Work` from `external.rs`: a node of the work forest.  The Rust
`WorkGroup { id, children, dependencies }` struct is inlined into the
`workGroup` constructor. -/
inductive Work where
  | workGroup (id : WorkGroupId) (children : List Work) (dependencies : List WorkItemOrGroupId)
  | workItem (item : WorkItem)

/-- Rust `Simulation` from `external.rs`.  The `workers` field (dates and float
percentages) is never read by the verified components and is omitted. -/
structure Simulation where
  work : List Work

/-! ## Association-list model of `HashMap` -/

/-- Lookup of a key in an association list (the observable behavior of
`HashMap::get`). -/
def mapLookup {β : Type} : List (String × β) → String → Option β
  | [], _ => none
  | kv :: rest, k => if kv.1 = k then some kv.2 else mapLookup rest k

/-- Rust `HashMap::insert`: replace the value of an existing key in place, or add
a fresh entry. -/
def mapInsert {β : Type} : List (String × β) → String → β → List (String × β)
  | [], k, v => [(k, v)]
  | kv :: rest, k, v => if kv.1 = k then (k, v) :: rest else kv :: mapInsert rest k v

/-- Rust `HashMap::extend`: insert every entry of the second map into the first. -/
def mapExtend {β : Type} (m m2 : List (String × β)) : List (String × β) :=
  m2.foldl (fun acc kv => mapInsert acc kv.1 kv.2) m

/-- The keys of an association list. -/
def mapKeys {β : Type} (m : List (String × β)) : List String :=
  m.map Prod.fst

/-! ## Index builder (`index.rs`) -/

/-- The `work_items_for_group` map: group id to the leaf items collected
beneath it. -/
abbrev GroupIndex := List (WorkGroupId × List WorkItem)

/-- The `work_items_by_id` map: leaf item id to the leaf item. -/
abbrev ByIdMap := List (WorkItemId × WorkItem)

/-- The `entry` update (`and_modify` push, `or_insert` singleton vector) step of
`find_work_items_for_a_group`. -/
def entryPushItem (m : GroupIndex) (k : WorkGroupId) (item : WorkItem) : GroupIndex :=
  match mapLookup m k with
  | some v => mapInsert m k (v ++ [item])
  | none => mapInsert m k [item]

/-- The group-child update of `find_work_items_for_a_group`: the Rust
`match index.get_mut(&work_group.id)` block, which appends `vs` to the
existing entry of `k` or inserts a fresh entry. -/
def entryAppendItems (m : GroupIndex) (k : WorkGroupId) (vs : List WorkItem) : GroupIndex :=
  match mapLookup m k with
  | some existing => mapInsert m k (existing ++ vs)
  | none => mapInsert m k vs

/-- Concatenation of all the value vectors of a map, in entry order: the
`these_leaves` accumulation loop over `leaves.values()`. -/
def mapValuesFlat : GroupIndex → List WorkItem
  | [] => []
  | kv :: rest => kv.2 ++ mapValuesFlat rest

/-- Function `find_work_items_for_a_group` from `index.rs`.  The Rust function takes a
`WorkGroup` and builds a fresh map by looping over its children; here the
group is passed as its id and children and the map being built is threaded as
the accumulator `index` (`[]` at the outer call, mirroring `HashMap::new()`).
A direct item child is pushed under the current group id; a group child is
recursed into, the concatenation of all value vectors of the recursive map is
appended under the current group id, and the recursive map itself is merged
in with `extend`. -/
def find_work_items_for_a_group (gid : WorkGroupId) :
    List Work → GroupIndex → GroupIndex
  | [], index => index
  | Work.workItem item :: rest, index =>
      find_work_items_for_a_group gid rest (entryPushItem index gid item)
  | Work.workGroup gid2 children2 _ :: rest, index =>
      let leaves := find_work_items_for_a_group gid2 children2 []
      let these_leaves := mapValuesFlat leaves
      find_work_items_for_a_group gid rest
        (mapExtend (entryAppendItems index gid these_leaves) leaves)

/-- Function `build_items_for_group_index` from `index.rs`: top-level work items are
skipped, each top-level group contributes its `find_work_items_for_a_group`
map via `extend`. -/
def build_items_for_group_index (sim : Simulation) : GroupIndex :=
  sim.work.foldl
    (fun map w =>
      match w with
      | Work.workItem _ => map
      | Work.workGroup gid children _ =>
          mapExtend map (find_work_items_for_a_group gid children []))
    []

/-- Function `build_items_by_id_index_prime` from `index.rs`, also covering the
top-level loop of `build_items_by_id_index` (which performs the identical
traversal on `sim.work`): every leaf item is inserted under its id. -/
def build_items_by_id_index_prime : List Work → ByIdMap → ByIdMap
  | [], acc => acc
  | Work.workItem item :: rest, acc =>
      build_items_by_id_index_prime rest (mapInsert acc item.id item)
  | Work.workGroup _ children _ :: rest, acc =>
      build_items_by_id_index_prime rest (build_items_by_id_index_prime children acc)

/-- Function `build_items_by_id_index` from `index.rs`. -/
def build_items_by_id_index (sim : Simulation) : ByIdMap :=
  build_items_by_id_index_prime sim.work []

/-- Rust `Indices` from `index.rs`. -/
structure Indices where
  simulation : Simulation
  work_items_for_group : GroupIndex
  work_items_by_id : ByIdMap

/-- Function `sim_to_indexes` from `index.rs`. -/
def sim_to_indexes (sim : Simulation) : Indices :=
  ⟨sim, build_items_for_group_index sim, build_items_by_id_index sim⟩

/-! ## Flattening and preparation (`rand_topo.rs`) -/

/-- Rust `Error` from `rand_topo.rs`. -/
inductive Error where
  | cycleDetected
  | emptyStack
  deriving DecidableEq

/-- Rust `WorkItemFlatDeps` from `rand_topo.rs`: a leaf item with its flattened
outgoing dependency set (modelled as a list up to membership). -/
structure WorkItemFlatDeps where
  work_item_id : WorkItemId
  dependencies : List WorkItemId
  deriving DecidableEq

/-- Rust `WorkItemIncomingLinks` from `rand_topo.rs`. -/
structure WorkItemIncomingLinks where
  work_item_id : WorkItemId
  incoming_links : Finset WorkItemId
  deriving DecidableEq

/-- Rust `Prepared` from `rand_topo.rs`. -/
structure Prepared where
  elements : List WorkItemIncomingLinks
  deriving DecidableEq

/-- Function `resolve_dependency_ids` from `rand_topo.rs`: a work-item reference
resolves to itself; a group reference resolves to the ids of the leaf items
the index records for that group, or to the empty vector when the group id is
absent from the index. -/
def resolve_dependency_ids (indexes : Indices) (id : WorkItemOrGroupId) : List WorkItemId :=
  match id with
  | WorkItemOrGroupId.workGroup group_id =>
      match mapLookup indexes.work_items_for_group group_id with
      | some data => data.map WorkItem.id
      | none => []
  | WorkItemOrGroupId.workItem item_id => [item_id]

/-- Function `resolve_all_dependencies` from `rand_topo.rs`: the `flat_map` of
`resolve_dependency_ids` over the reference list (the Rust `collect` into a
`HashSet` only dedups; membership is unchanged). -/
def resolve_all_dependencies (indexes : Indices) : List WorkItemOrGroupId → List WorkItemId
  | [] => []
  | id :: rest => resolve_dependency_ids indexes id ++ resolve_all_dependencies indexes rest

/-- The child loop of `flatten_group` from `rand_topo.rs`, with the enclosing
group's own resolved dependency set `group_deps` fixed.  For a child group the
source calls `flatten_group(indexes, group, group_deps.clone())`, and
`flatten_group` recomputes `group_deps` from that group's own `dependencies`
field without ever reading its `deps` parameter — so the recursive call here
proceeds with the child group's own resolved set only, exactly as the source
does.  A child item receives `group_deps` unioned with its own locally
resolved dependencies. -/
def flattenChildren (indexes : Indices) (group_deps : List WorkItemId) :
    List Work → List WorkItemFlatDeps
  | [] => []
  | Work.workGroup _ children dependencies :: rest =>
      flattenChildren indexes (resolve_all_dependencies indexes dependencies) children
        ++ flattenChildren indexes group_deps rest
  | Work.workItem item :: rest =>
      ⟨item.id, group_deps ++ resolve_all_dependencies indexes item.dependencies⟩
        :: flattenChildren indexes group_deps rest

/-- Function `flatten_group` from `rand_topo.rs`.  The `deps` parameter is the
inherited set passed by the caller; as in the source it is received and never
used (the body only uses the group's own resolved `dependencies`). -/
def flatten_group (indexes : Indices) (children : List Work)
    (dependencies : List WorkItemOrGroupId) (deps : List WorkItemId) :
    List WorkItemFlatDeps :=
  flattenChildren indexes (resolve_all_dependencies indexes dependencies) children

/-- The top-level loop of `index_to_flat_deps` from `rand_topo.rs`. -/
def indexToFlatGo (indices : Indices) : List Work → List WorkItemFlatDeps
  | [] => []
  | Work.workGroup _ children dependencies :: rest =>
      flatten_group indices children dependencies [] ++ indexToFlatGo indices rest
  | Work.workItem item :: rest =>
      ⟨item.id, resolve_all_dependencies indices item.dependencies⟩
        :: indexToFlatGo indices rest

/-- Function `index_to_flat_deps` from `rand_topo.rs`. -/
def index_to_flat_deps (indices : Indices) : List WorkItemFlatDeps :=
  indexToFlatGo indices indices.simulation.work

/-- The intermediate `incoming` map of `outgoing_deps_to_incoming_deps`: one entry keyed
by a dependency id, holding the set of item ids that listed it.  The key is
the first component, the set the second. -/
abbrev IncomingMap := List (WorkItemId × Finset WorkItemId)

/-- The `entry` update on key `dep` (`and_modify` inserting `item`, `or_insert`
of the singleton set) performed by `outgoing_deps_to_incoming_deps`. -/
def addIncoming (item : WorkItemId) : IncomingMap → WorkItemId → IncomingMap
  | [], dep => [(dep, {item})]
  | kv :: rest, dep =>
      if kv.1 = dep then (kv.1, insert item kv.2) :: rest
      else kv :: addIncoming item rest dep

/-- The inner `for dep in &item.dependencies` loop of
`outgoing_deps_to_incoming_deps`. -/
def addItemDeps (m : IncomingMap) (f : WorkItemFlatDeps) : IncomingMap :=
  f.dependencies.foldl (addIncoming f.work_item_id) m

/-- Function `outgoing_deps_to_incoming_deps` from `rand_topo.rs`: build the
`incoming` map over all items and their dependencies, then read the map out
as a vector of `WorkItemIncomingLinks`. -/
def outgoing_deps_to_incoming_deps (outgoing : List WorkItemFlatDeps) :
    List WorkItemIncomingLinks :=
  (outgoing.foldl addItemDeps []).map (fun kv => ⟨kv.1, kv.2⟩)

/-- Function `prepare` from `rand_topo.rs`. -/
def prepare (indices : Indices) : Prepared :=
  ⟨outgoing_deps_to_incoming_deps (index_to_flat_deps indices)⟩

/-! ## Sorting (`rand_topo.rs`) -/

/-- Function `find_and_load_no_incoming` from `rand_topo.rs`: `retain` keeps the
elements whose `incoming_links` set is non-empty and pushes the ids of the
dropped ones onto `no_deps`, in iteration order. -/
def find_and_load_no_incoming :
    List WorkItemIncomingLinks → List WorkItemId →
    List WorkItemIncomingLinks × List WorkItemId
  | [], no_deps => ([], no_deps)
  | link :: rest, no_deps =>
      if link.incoming_links = ∅ then
        find_and_load_no_incoming rest (no_deps ++ [link.work_item_id])
      else
        let p := find_and_load_no_incoming rest no_deps
        (link :: p.1, p.2)

/-- Body of the `retain_mut` pass of the sort loop: remove the emitted `head` from
every remaining element's `incoming_links`; elements whose set becomes empty
are dropped and their ids collected (in iteration order) for the ready
stack. -/
def removeHeadAndSplit (head : WorkItemId) :
    List WorkItemIncomingLinks → List WorkItemIncomingLinks × List WorkItemId
  | [] => ([], [])
  | link :: rest =>
      let s := link.incoming_links.erase head
      let p := removeHeadAndSplit head rest
      if s = ∅ then (p.1, link.work_item_id :: p.2)
      else (⟨link.work_item_id, s⟩ :: p.1, p.2)

/-- The random shuffle of the ready stack, abstracted: `rand::thread_rng`
with `SliceRandom::shuffle` realizes some permutation each round.  Theorems
about `sort` quantify over this function. -/
abbrev Shuffle := List WorkItemId → List WorkItemId

/-- The main loop (`while !no_deps.is_empty()`) of `sort` from `rand_topo.rs`, with
an explicit fuel.  Each round shuffles the ready stack, pops its last element
(`Vec::pop`; an empty pop is the `EmptyStack` error), appends it to the
output, and runs the `retain_mut` edge-removal pass, pushing newly ready ids
onto the stack.  When the stack is empty the loop exits: an empty remaining
element list yields the sorted output, a non-empty one the `CycleDetected`
error.  `none` means the fuel ran out before the loop exited; the termination
theorem shows the fuel used by `sort` never does. -/
def sortLoop (sh : Shuffle) :
    Nat → List WorkItemIncomingLinks → List WorkItemId → List WorkItemId →
    Option (Except Error (List WorkItemId))
  | _, elements, [], sorted_elements =>
      some (if elements.isEmpty then Except.ok sorted_elements
            else Except.error Error.cycleDetected)
  | 0, _, _ :: _, _ => none
  | Nat.succ fuel, elements, no_deps@(_ :: _), sorted_elements =>
      match (sh no_deps).getLast? with
      | none => some (Except.error Error.emptyStack)
      | some head =>
          let p := removeHeadAndSplit head elements
          sortLoop sh fuel p.1 ((sh no_deps).dropLast ++ p.2) (sorted_elements ++ [head])

/-- Function `sort` from `rand_topo.rs`, parameterized by the shuffle: load the
initially ready elements, then run the loop.  The fuel is the bound
established by the termination claim: the initial ready count plus the number
of remaining elements. -/
def sort (sh : Shuffle) (prepared : Prepared) : Option (Except Error (List WorkItemId)) :=
  let p := find_and_load_no_incoming prepared.elements []
  sortLoop sh (p.2.length + p.1.length) p.1 p.2 []

/-! ## Row-record classification (`convert_template.rs`) -/

/-- Rust `Template` from `convert_template.rs`: one row record of the hierarchy
importer. -/
structure Template where
  id : String
  rung : Option String
  task : Option String
  sub_task : Option String
  skills : List String
  dependencies : List String
  deriving DecidableEq

/-- Rust `TemplateEvent` from `convert_template.rs`. -/
inductive TemplateEvent where
  | probableWorkGroup (id description : String) (skills dependencies : List String)
  | probableWorkItem (id description : String) (skills dependencies : List String)
  deriving DecidableEq

/-- Rust `Error` from `convert_template.rs`. -/
inductive TemplateError where
  | unableToResolveDependency (dep : String)
  | invalidWorkGroupId (id : String)
  | invalidWorkItem (id : String)
  deriving DecidableEq

/-- Function `template_to_event` from `convert_template.rs`: classify a row record by
which of the three level labels is populated. -/
def template_to_event (template : Template) : Except TemplateError TemplateEvent :=
  match template.rung, template.task, template.sub_task with
  | some rung, none, none =>
      Except.ok (TemplateEvent.probableWorkGroup template.id rung
        template.skills template.dependencies)
  | none, some task, none =>
      Except.ok (TemplateEvent.probableWorkGroup template.id task
        template.skills template.dependencies)
  | none, none, some sub_task =>
      Except.ok (TemplateEvent.probableWorkItem template.id sub_task
        template.skills template.dependencies)
  | _, _, _ => Except.error (TemplateError.invalidWorkItem template.id)

/-- The number of populated level labels of a row record. -/
def populatedLevels (template : Template) : Nat :=
  (if template.rung.isSome then 1 else 0)
    + (if template.task.isSome then 1 else 0)
    + (if template.sub_task.isSome then 1 else 0)

/-! ## Concrete simulations used in evaluations and witnesses -/

/-- Leaf item `a` with no dependencies. -/
def itemA : WorkItem := ⟨"a", [], []⟩

/-- Leaf item `b` depending on item `a`. -/
def itemB : WorkItem := ⟨"b", [WorkItemOrGroupId.workItem "a"], []⟩

/-- Leaf item `c` depending on items `a` and `b`. -/
def itemC : WorkItem := ⟨"c", [WorkItemOrGroupId.workItem "a", WorkItemOrGroupId.workItem "b"], []⟩

/-- Two items and one dependency edge (`b` depends on `a`): an acyclic
dependency graph. -/
def simAB : Simulation := ⟨[Work.workItem itemA, Work.workItem itemB]⟩

/-- The three-item scenario of the spec: `b` depends on `a` and `c` depends
on both `a` and `b`. -/
def simABC : Simulation := ⟨[Work.workItem itemA, Work.workItem itemB, Work.workItem itemC]⟩

/-- Two leaf items depending directly on each other. -/
def simMutual : Simulation :=
  ⟨[Work.workItem ⟨"a", [WorkItemOrGroupId.workItem "b"], []⟩,
    Work.workItem ⟨"b", [WorkItemOrGroupId.workItem "a"], []⟩]⟩

/-- A leaf item `i` nested three group levels below the group `g1`, whose
dependencies reference the outside item `x`; the intermediate groups and the
item itself declare no dependencies. -/
def simNested : Simulation :=
  ⟨[Work.workGroup "g1"
      [Work.workGroup "g2"
        [Work.workGroup "g3" [Work.workItem ⟨"i", [], []⟩] []] []]
      [WorkItemOrGroupId.workItem "x"],
    Work.workItem ⟨"x", [], []⟩]⟩

/-- The empty simulation. -/
def simEmpty : Simulation := ⟨[]⟩

/-! ## The incoming map: value sets are never empty, keys are the deps -/

theorem values_nonempty_addIncoming (item : WorkItemId) (m : IncomingMap) (dep : WorkItemId)
    (h : ∀ kv ∈ m, kv.2 ≠ (∅ : Finset WorkItemId)) :
    ∀ kv ∈ addIncoming item m dep, kv.2 ≠ (∅ : Finset WorkItemId) := by
  induction m with
  | nil =>
      intro kv hkv
      simp only [addIncoming, List.mem_singleton] at hkv
      subst hkv
      simp
  | cons hd tl ih =>
      intro kv hkv
      by_cases hh : hd.1 = dep
      · simp only [addIncoming, if_pos hh, List.mem_cons] at hkv
        rcases hkv with rfl | hkv
        · simp
        · exact h _ (List.mem_cons_of_mem _ hkv)
      · simp only [addIncoming, if_neg hh, List.mem_cons] at hkv
        rcases hkv with rfl | hkv
        · exact h _ (List.mem_cons_self _ _)
        · exact ih (fun a ha => h a (List.mem_cons_of_mem _ ha)) _ hkv

theorem values_nonempty_foldl_addIncoming (item : WorkItemId) (deps : List WorkItemId) :
    ∀ m : IncomingMap, (∀ kv ∈ m, kv.2 ≠ (∅ : Finset WorkItemId)) →
      ∀ kv ∈ deps.foldl (addIncoming item) m, kv.2 ≠ (∅ : Finset WorkItemId) := by
  induction deps with
  | nil => intro m h; simpa using h
  | cons d rest ih =>
      intro m h
      simp only [List.foldl_cons]
      exact ih (addIncoming item m d) (values_nonempty_addIncoming item m d h)

theorem values_nonempty_foldl_addItemDeps (outgoing : List WorkItemFlatDeps) :
    ∀ m : IncomingMap, (∀ kv ∈ m, kv.2 ≠ (∅ : Finset WorkItemId)) →
      ∀ kv ∈ outgoing.foldl addItemDeps m, kv.2 ≠ (∅ : Finset WorkItemId) := by
  induction outgoing with
  | nil => intro m h; simpa using h
  | cons f rest ih =>
      intro m h
      simp only [List.foldl_cons]
      exact ih (addItemDeps m f)
        (values_nonempty_foldl_addIncoming f.work_item_id f.dependencies m h)

theorem prepare_links_nonempty (indices : Indices) :
    ∀ e ∈ (prepare indices).elements, e.incoming_links ≠ (∅ : Finset WorkItemId) := by
  intro e he
  simp only [prepare, outgoing_deps_to_incoming_deps] at he
  rcases List.mem_map.1 he with ⟨kv, hkv, rfl⟩
  exact values_nonempty_foldl_addItemDeps (index_to_flat_deps indices) []
    (by intro kv h; exact absurd h (List.not_mem_nil kv)) kv hkv

theorem mem_keys_addIncoming (item : WorkItemId) (m : IncomingMap) (dep k : WorkItemId) :
    k ∈ mapKeys (addIncoming item m dep) ↔ k ∈ mapKeys m ∨ k = dep := by
  induction m with
  | nil => simp [addIncoming, mapKeys]
  | cons hd tl ih =>
      by_cases hh : hd.1 = dep
      · subst hh
        simp [addIncoming, mapKeys]
        tauto
      · simp only [addIncoming, if_neg hh, mapKeys, List.map_cons, List.mem_cons] at *
        rw [ih]
        tauto

theorem mem_keys_foldl_addIncoming (item : WorkItemId) (deps : List WorkItemId) :
    ∀ (m : IncomingMap) (k : WorkItemId),
      k ∈ mapKeys (deps.foldl (addIncoming item) m) ↔ k ∈ mapKeys m ∨ k ∈ deps := by
  induction deps with
  | nil => intro m k; simp
  | cons d rest ih =>
      intro m k
      simp only [List.foldl_cons, List.mem_cons]
      rw [ih, mem_keys_addIncoming]
      tauto

theorem mem_keys_foldl_addItemDeps (outgoing : List WorkItemFlatDeps) :
    ∀ (m : IncomingMap) (k : WorkItemId),
      k ∈ mapKeys (outgoing.foldl addItemDeps m) ↔
        k ∈ mapKeys m ∨ ∃ f ∈ outgoing, k ∈ f.dependencies := by
  induction outgoing with
  | nil => intro m k; simp
  | cons f rest ih =>
      intro m k
      simp only [List.foldl_cons]
      rw [ih]
      rw [show addItemDeps m f = f.dependencies.foldl (addIncoming f.work_item_id) m from rfl]
      rw [mem_keys_foldl_addIncoming]
      simp only [List.mem_cons]
      constructor
      · rintro ((hm | hf) | ⟨g, hg, hk⟩)
        · exact Or.inl hm
        · exact Or.inr ⟨f, Or.inl rfl, hf⟩
        · exact Or.inr ⟨g, Or.inr hg, hk⟩
      · rintro (hm | ⟨g, (rfl | hg), hk⟩)
        · exact Or.inl (Or.inl hm)
        · exact Or.inl (Or.inr hk)
        · exact Or.inr ⟨g, hg, hk⟩

theorem prepare_ids_iff (indices : Indices) (x : WorkItemId) :
    (∃ e ∈ (prepare indices).elements, e.work_item_id = x) ↔
      ∃ f ∈ index_to_flat_deps indices, x ∈ f.dependencies := by
  have hkeys := mem_keys_foldl_addItemDeps (index_to_flat_deps indices) [] x
  simp only [mapKeys, List.map_nil, List.not_mem_nil, false_or] at hkeys
  rw [← hkeys]
  simp only [prepare, outgoing_deps_to_incoming_deps, mapKeys]
  constructor
  · rintro ⟨e, he, rfl⟩
    rcases List.mem_map.1 he with ⟨kv, hkv, rfl⟩
    exact List.mem_map.2 ⟨kv, hkv, rfl⟩
  · intro hx
    rcases List.mem_map.1 hx with ⟨kv, hkv, rfl⟩
    exact ⟨⟨kv.1, kv.2⟩, List.mem_map.2 ⟨kv, hkv, rfl⟩, rfl⟩

theorem prepare_elements_ne_nil (indices : Indices) (f : WorkItemFlatDeps) (b : WorkItemId)
    (hf : f ∈ index_to_flat_deps indices) (hb : b ∈ f.dependencies) :
    (prepare indices).elements ≠ [] := by
  intro hnil
  have h := (prepare_ids_iff indices b).2 ⟨f, hf, hb⟩
  rw [hnil] at h
  simp at h

/-! ## The outcome of sort on a prepared graph -/

theorem find_and_load_of_nonempty (items : List WorkItemIncomingLinks) :
    ∀ no_deps : List WorkItemId, (∀ e ∈ items, e.incoming_links ≠ (∅ : Finset WorkItemId)) →
      find_and_load_no_incoming items no_deps = (items, no_deps) := by
  induction items with
  | nil => intro nd h; rfl
  | cons link rest ih =>
      intro nd h
      have hlink : ¬ link.incoming_links = (∅ : Finset WorkItemId) :=
        h link (List.mem_cons_self link rest)
      simp only [find_and_load_no_incoming, if_neg hlink]
      rw [ih nd (fun e he => h e (List.mem_cons_of_mem link he))]

theorem sortLoop_no_ready (sh : Shuffle) (fuel : Nat) (elements : List WorkItemIncomingLinks)
    (sorted_elements : List WorkItemId) :
    sortLoop sh fuel elements [] sorted_elements =
      some (if elements.isEmpty then Except.ok sorted_elements
            else Except.error Error.cycleDetected) := by
  cases fuel <;> rfl

theorem sort_prepare_outcome (sh : Shuffle) (indices : Indices) :
    sort sh (prepare indices) =
      some (if (prepare indices).elements.isEmpty then Except.ok ([] : List WorkItemId)
            else Except.error Error.cycleDetected) := by
  have h := find_and_load_of_nonempty (prepare indices).elements []
      (prepare_links_nonempty indices)
  simp only [sort, h]
  exact sortLoop_no_ready sh _ _ _

theorem prepare_elements_isEmpty_false (indices : Indices) (f : WorkItemFlatDeps)
    (b : WorkItemId) (hf : f ∈ index_to_flat_deps indices) (hb : b ∈ f.dependencies) :
    (prepare indices).elements.isEmpty = false := by
  cases hel : (prepare indices).elements with
  | nil => exact absurd hel (prepare_elements_ne_nil indices f b hf hb)
  | cons a l => rfl

/-! ## Termination of the sort loop -/

theorem length_removeHeadAndSplit (head : WorkItemId) (l : List WorkItemIncomingLinks) :
    (removeHeadAndSplit head l).1.length + (removeHeadAndSplit head l).2.length = l.length := by
  induction l with
  | nil => rfl
  | cons link rest ih =>
      by_cases h : link.incoming_links.erase head = (∅ : Finset WorkItemId)
      · simp only [removeHeadAndSplit, if_pos h, List.length_cons]
        omega
      · simp only [removeHeadAndSplit, if_neg h, List.length_cons]
        omega

theorem sortLoop_isSome (sh : Shuffle) (hsh : ∀ l, (sh l).length = l.length) :
    ∀ (fuel : Nat) (elements : List WorkItemIncomingLinks)
      (no_deps sorted_elements : List WorkItemId),
      no_deps.length + elements.length ≤ fuel →
      (sortLoop sh fuel elements no_deps sorted_elements).isSome = true := by
  intro fuel
  induction fuel with
  | zero =>
      intro elements no_deps sorted h
      cases no_deps with
      | nil => rw [sortLoop_no_ready]; rfl
      | cons a l => simp at h
  | succ fuel ih =>
      intro elements no_deps sorted h
      cases no_deps with
      | nil => rw [sortLoop_no_ready]; rfl
      | cons a l =>
          have h1 : (sh (a :: l)).length = l.length + 1 := by rw [hsh]; rfl
          simp only [sortLoop]
          cases hlast : (sh (a :: l)).getLast? with
          | none => rfl
          | some head =>
              apply ih
              have h2 := length_removeHeadAndSplit head elements
              have h3 : ((sh (a :: l)).dropLast).length = l.length := by
                rw [List.length_dropLast, h1]
                omega
              simp only [List.length_append, h3]
              simp only [List.length_cons] at h
              omega

/-! ## Claim theorems -/

/-- C10: for every `Prepared` value, `sort` terminates: each loop iteration
pops one id from the ready stack and ids are pushed only when an element is
permanently removed from the remaining-elements list, so the iteration count
is bounded by the initial ready count plus the number of elements — the
exact fuel `sort` supplies, which the loop therefore never exhausts,
whenever the shuffle is length-preserving (a permutation, as
`SliceRandom::shuffle` is). -/
theorem c10_sort_terminates (sh : Shuffle) (hsh : ∀ l, (sh l).length = l.length)
    (prepared : Prepared) : (sort sh prepared).isSome = true := by
  simp only [sort]
  exact sortLoop_isSome sh hsh _ _ _ _ (Nat.le_refl _)

/-- Witness for C10 at a concrete prepared graph and the identity shuffle. -/
theorem c10_sort_terminates_witness :
    (sort (fun l => l) (prepare (sim_to_indexes simAB))).isSome = true :=
  c10_sort_terminates (fun l => l) (fun _ => rfl) (prepare (sim_to_indexes simAB))

/-- C6: for every `Indices` value, every element of the `Prepared` value
built by `prepare` has a non-empty `incoming_links` set, and an element for
id `x` exists exactly when `x` occurs in some item flattened dependency
set (so a leaf item on which no other item depends has no element). -/
theorem c6_prepared_invariants (indices : Indices) :
    (∀ e ∈ (prepare indices).elements, e.incoming_links ≠ (∅ : Finset WorkItemId)) ∧
    ∀ x : WorkItemId,
      (∃ e ∈ (prepare indices).elements, e.work_item_id = x) ↔
        ∃ f ∈ index_to_flat_deps indices, x ∈ f.dependencies :=
  ⟨prepare_links_nonempty indices, prepare_ids_iff indices⟩

/-- Witness for C6 on a concrete index: the single prepared element of
`simAB` has the non-empty link set predicted, and id `a` is a key because it
occurs in a flattened dependency set. -/
theorem c6_prepared_invariants_witness :
    (⟨"a", {"b"}⟩ : WorkItemIncomingLinks) ∈ (prepare (sim_to_indexes simAB)).elements ∧
    ({"b"} : Finset WorkItemId) ≠ (∅ : Finset WorkItemId) ∧
    (∃ f ∈ index_to_flat_deps (sim_to_indexes simAB), "a" ∈ f.dependencies) :=
  ⟨by decide,
   (c6_prepared_invariants (sim_to_indexes simAB)).1 ⟨"a", {"b"}⟩ (by decide),
   ((c6_prepared_invariants (sim_to_indexes simAB)).2 "a").mp ⟨⟨"a", {"b"}⟩, by decide, rfl⟩⟩

/-- C1 (evaluation at the failing input): `simAB` flattens to the acyclic
graph with the single edge `b` depends on `a`, yet `sort` on the prepared
value returns `CycleDetected` for every shuffle instead of an `Ok` sequence
containing each leaf exactly once: the incoming map is keyed by blockers
only, so no element ever starts ready. -/
theorem c1_dag_sort_returns_cycle_detected :
    (index_to_flat_deps (sim_to_indexes simAB)).map
        (fun f => (f.work_item_id, f.dependencies)) = [("a", []), ("b", ["a"])] ∧
    ∀ sh : Shuffle, sort sh (prepare (sim_to_indexes simAB)) =
      some (Except.error Error.cycleDetected) :=
  ⟨rfl, fun _ => rfl⟩

/-- C2 (evaluation at the failing input): on the concrete `A`, `B`, `C`
scenario the code never returns `Ok [a, b, c]`: every invocation of `sort`,
for every shuffle, returns `CycleDetected`. -/
theorem c2_scenario_abc_sort_returns_cycle_detected :
    (index_to_flat_deps (sim_to_indexes simABC)).map
        (fun f => (f.work_item_id, f.dependencies)) =
      [("a", []), ("b", ["a"]), ("c", ["a", "b"])] ∧
    ∀ sh : Shuffle, sort sh (prepare (sim_to_indexes simABC)) =
      some (Except.error Error.cycleDetected) :=
  ⟨rfl, fun _ => rfl⟩

/-- C3 (evaluation at the failing input): in `simNested` the leaf `i` sits
three group levels below `g1`, whose dependencies reference item `x`; the
flattener nevertheless computes the empty dependency set for `i`, because
`flatten_group` drops the inherited set it receives and passes down only the
immediately enclosing group resolved dependencies. -/
theorem c3_nested_leaf_misses_inherited_dependency :
    (index_to_flat_deps (sim_to_indexes simNested)).map
        (fun f => (f.work_item_id, f.dependencies)) = [("i", []), ("x", [])] ∧
    ¬ ∃ f ∈ index_to_flat_deps (sim_to_indexes simNested),
        f.work_item_id = "i" ∧ "x" ∈ f.dependencies := by
  have h : index_to_flat_deps (sim_to_indexes simNested) = [⟨"i", []⟩, ⟨"x", []⟩] := by
    simp [index_to_flat_deps, indexToFlatGo, flatten_group, flattenChildren,
      resolve_all_dependencies, resolve_dependency_ids, sim_to_indexes, simNested]
  rw [h]
  exact ⟨rfl, by decide⟩

/-- C4: whenever two flattened leaf entries each list the other id among
their dependencies (a mutual dependency, direct or created through a shared
group), every invocation of `sort` on the prepared graph returns the
`CycleDetected` error, never an `Ok` sequence. -/
theorem c4_mutual_dependency_cycle_detected (indices : Indices) (sh : Shuffle)
    (fa fb : WorkItemFlatDeps)
    (hfa : fa ∈ index_to_flat_deps indices) (hfb : fb ∈ index_to_flat_deps indices)
    (hab : fb.work_item_id ∈ fa.dependencies) (hba : fa.work_item_id ∈ fb.dependencies) :
    sort sh (prepare indices) = some (Except.error Error.cycleDetected) := by
  rw [sort_prepare_outcome sh indices,
    prepare_elements_isEmpty_false indices fa fb.work_item_id hfa hab]
  rfl

/-- Witness for C4 at the concrete mutually dependent pair. -/
theorem c4_mutual_dependency_cycle_detected_witness :
    sort (fun l => l) (prepare (sim_to_indexes simMutual)) =
      some (Except.error Error.cycleDetected) :=
  c4_mutual_dependency_cycle_detected (sim_to_indexes simMutual) (fun l => l)
    ⟨"a", ["b"]⟩ ⟨"b", ["a"]⟩ (by decide) (by decide) (by decide) (by decide)

/-- C5: whenever `sort` returns an `Ok` sequence, every edge of the
flattened dependency graph is respected: the position of the blocker
precedes the position of the dependent item, for every shuffle.  (On this
code an `Ok` result forces the prepared element list, and hence the edge
set, to be empty, so the property holds vacuously at every edge.) -/
theorem c5_ok_output_respects_edges (indices : Indices) (sh : Shuffle)
    (out : List WorkItemId)
    (hok : sort sh (prepare indices) = some (Except.ok out)) :
    ∀ fa ∈ index_to_flat_deps indices, ∀ b ∈ fa.dependencies,
      ∃ i j : Fin out.length, (i : Nat) < (j : Nat) ∧
        out.get i = b ∧ out.get j = fa.work_item_id := by
  intro fa hfa b hb
  exfalso
  have hout := sort_prepare_outcome sh indices
  rw [hok, prepare_elements_isEmpty_false indices fa b hfa hb] at hout
  simp at hout

/-- Witness for C5: the empty simulation, where `sort` does return `Ok []`
and the edge set is empty. -/
theorem c5_ok_output_respects_edges_witness :
    sort (fun l => l) (prepare (sim_to_indexes simEmpty)) =
      some (Except.ok ([] : List WorkItemId)) ∧
    ∀ fa ∈ index_to_flat_deps (sim_to_indexes simEmpty), ∀ b ∈ fa.dependencies,
      ∃ i j : Fin ([] : List WorkItemId).length, (i : Nat) < (j : Nat) ∧
        ([] : List WorkItemId).get i = b ∧ ([] : List WorkItemId).get j = fa.work_item_id :=
  ⟨rfl, c5_ok_output_respects_edges (sim_to_indexes simEmpty) (fun l => l) [] rfl⟩

/-- C8: a dependency reference naming a group id that is absent from the
index, or present with zero leaf items, resolves to the empty id list; the
resolver is total and has no error outcome. -/
theorem c8_dangling_or_empty_group_resolves_empty (indexes : Indices) (gid : WorkGroupId)
    (h : mapLookup indexes.work_items_for_group gid = none ∨
         mapLookup indexes.work_items_for_group gid = some []) :
    resolve_dependency_ids indexes (WorkItemOrGroupId.workGroup gid) = [] := by
  rcases h with h | h <;> simp [resolve_dependency_ids, h]

/-- Witness for C8: a group id absent from the empty-simulation index. -/
theorem c8_dangling_or_empty_group_resolves_empty_witness :
    (mapLookup (sim_to_indexes simEmpty).work_items_for_group "g" = none ∨
     mapLookup (sim_to_indexes simEmpty).work_items_for_group "g" = some []) ∧
    resolve_dependency_ids (sim_to_indexes simEmpty) (WorkItemOrGroupId.workGroup "g") = [] :=
  ⟨Or.inl rfl,
   c8_dangling_or_empty_group_resolves_empty (sim_to_indexes simEmpty) "g" (Or.inl rfl)⟩

/-- C9: classification of a hierarchy-importer row record succeeds exactly
when exactly one of the three level labels (`rung`, `task`, `sub_task`) is
populated; otherwise it is rejected with `InvalidWorkItem` carrying the
record id. -/
theorem c9_template_classification (template : Template) :
    ((∃ ev, template_to_event template = Except.ok ev) ↔ populatedLevels template = 1) ∧
    (populatedLevels template ≠ 1 →
      template_to_event template = Except.error (TemplateError.invalidWorkItem template.id)) := by
  obtain ⟨id, rung, task, sub_task, skills, dependencies⟩ := template
  cases rung <;> cases task <;> cases sub_task <;>
    simp [template_to_event, populatedLevels]

/-- Witness for C9: the all-empty record is rejected with `InvalidWorkItem`
carrying its id. -/
theorem c9_template_classification_witness :
    populatedLevels ⟨"t1", none, none, none, [], []⟩ ≠ 1 ∧
    template_to_event ⟨"t1", none, none, none, [], []⟩ =
      Except.error (TemplateError.invalidWorkItem "t1") :=
  ⟨by decide, (c9_template_classification ⟨"t1", none, none, none, [], []⟩).2 (by decide)⟩

/-! ## Reference definitions for the index claims

These are the spec-side descriptions the index builder is compared against:
the leaf items of a forest and the leaf items nested transitively beneath a
group of a given id. -/

/-- All leaf items of a forest, in traversal order. -/
def allLeaves : List Work → List WorkItem
  | [] => []
  | Work.workGroup _ cs _ :: rest => allLeaves cs ++ allLeaves rest
  | Work.workItem i :: rest => i :: allLeaves rest

/-- The leaf items nested transitively beneath any group named `gid` in the
forest (the spec reading of `work_items_for_group`). -/
def leavesUnder (gid : WorkGroupId) : List Work → List WorkItem
  | [] => []
  | Work.workGroup g cs _ :: rest =>
      (if g = gid then allLeaves cs else []) ++ leavesUnder gid cs ++ leavesUnder gid rest
  | Work.workItem _ :: rest => leavesUnder gid rest

/-- All group ids of a forest, with multiplicity. -/
def groupIds : List Work → List WorkGroupId
  | [] => []
  | Work.workGroup g cs _ :: rest => g :: (groupIds cs ++ groupIds rest)
  | Work.workItem _ :: rest => groupIds rest

/-- Reading of the group index prescribed by the spec: an absent entry is
the empty set. -/
def lookupOrEmpty (m : GroupIndex) (k : WorkGroupId) : List WorkItem :=
  (mapLookup m k).getD []

/-! ## Generic association-list lemmas -/

theorem mapLookup_mapInsert {β : Type} (m : List (String × β)) (k1 k : String) (v : β) :
    mapLookup (mapInsert m k1 v) k = if k1 = k then some v else mapLookup m k := by
  induction m with
  | nil => by_cases h : k1 = k <;> simp [mapInsert, mapLookup, h]
  | cons kv rest ih =>
      by_cases h1 : kv.1 = k1
      · have hins : mapInsert (kv :: rest) k1 v = (k1, v) :: rest := by
          simp [mapInsert, h1]
        by_cases h : k1 = k
        · rw [hins]
          simp [mapLookup, h]
        · have hk : ¬ kv.1 = k := by rw [h1]; exact h
          rw [hins]
          simp [mapLookup, h, hk]
      · have hins : mapInsert (kv :: rest) k1 v = kv :: mapInsert rest k1 v := by
          simp [mapInsert, h1]
        by_cases h2 : kv.1 = k
        · have hk : ¬ k1 = k := fun e => h1 (by rw [h2, e])
          rw [hins]
          simp [mapLookup, h2, hk]
        · rw [hins]
          simp [mapLookup, h2, ih]

theorem mem_mapKeys_mapInsert {β : Type} (m : List (String × β)) (k a : String) (v : β) :
    a ∈ mapKeys (mapInsert m k v) ↔ a ∈ mapKeys m ∨ a = k := by
  induction m with
  | nil => simp [mapInsert, mapKeys]
  | cons kv rest ih =>
      by_cases h1 : kv.1 = k
      · simp only [mapInsert, if_pos h1, mapKeys, List.map_cons, List.mem_cons]
        rw [← h1]
        tauto
      · simp only [mapInsert, if_neg h1, mapKeys, List.map_cons, List.mem_cons]
        rw [show (List.map Prod.fst (mapInsert rest k v) : List String) =
          mapKeys (mapInsert rest k v) from rfl, ih]
        tauto

theorem nodup_mapKeys_mapInsert {β : Type} (m : List (String × β)) (k : String) (v : β)
    (h : (mapKeys m).Nodup) : (mapKeys (mapInsert m k v)).Nodup := by
  induction m with
  | nil => simp [mapInsert, mapKeys]
  | cons kv rest ih =>
      simp only [mapKeys, List.map_cons, List.nodup_cons] at h
      by_cases h1 : kv.1 = k
      · simp only [mapInsert, if_pos h1, mapKeys, List.map_cons, List.nodup_cons]
        exact ⟨h1 ▸ h.1, h.2⟩
      · simp only [mapInsert, if_neg h1, mapKeys, List.map_cons, List.nodup_cons]
        refine ⟨?_, ih h.2⟩
        intro hmem
        rcases (mem_mapKeys_mapInsert rest k kv.1 v).1 hmem with hm | hm
        · exact h.1 hm
        · exact h1 hm

theorem mapLookup_eq_none_of_not_mem {β : Type} (m : List (String × β)) (k : String)
    (h : k ∉ mapKeys m) : mapLookup m k = none := by
  induction m with
  | nil => rfl
  | cons kv rest ih =>
      simp only [mapKeys, List.map_cons, List.mem_cons] at h
      push_neg at h
      simp only [mapLookup]
      rw [if_neg (fun e => h.1 e.symm)]
      exact ih h.2

theorem mem_mapKeys_of_lookup {β : Type} (m : List (String × β)) (k : String) (v : β)
    (h : mapLookup m k = some v) : k ∈ mapKeys m := by
  induction m with
  | nil => simp [mapLookup] at h
  | cons kv rest ih =>
      by_cases h1 : kv.1 = k
      · simp [mapKeys, h1]
      · simp only [mapLookup, if_neg h1] at h
        simp only [mapKeys, List.map_cons, List.mem_cons]
        exact Or.inr (ih h)

theorem entry_mem_of_lookup {β : Type} (m : List (String × β)) (k : String) (v : β)
    (h : mapLookup m k = some v) : (k, v) ∈ m := by
  induction m with
  | nil => simp [mapLookup] at h
  | cons kv rest ih =>
      by_cases h1 : kv.1 = k
      · simp only [mapLookup, if_pos h1, Option.some.injEq] at h
        have hkv : kv = (k, v) := Prod.ext h1 h
        rw [← hkv]
        exact List.mem_cons_self kv rest
      · simp only [mapLookup, if_neg h1] at h
        exact List.mem_cons_of_mem kv (ih h)

theorem lookup_of_entry_mem_nodup {β : Type} (m : List (String × β)) (k : String) (v : β)
    (hnd : (mapKeys m).Nodup) (h : (k, v) ∈ m) : mapLookup m k = some v := by
  induction m with
  | nil => simp at h
  | cons kv rest ih =>
      simp only [mapKeys, List.map_cons, List.nodup_cons] at hnd
      rcases List.mem_cons.1 h with rfl | hm
      · simp [mapLookup]
      · have hk : kv.1 ≠ k := by
          intro hk
          have hmk : k ∈ List.map Prod.fst rest := by
            simpa using List.mem_map_of_mem Prod.fst hm
          rw [hk] at hnd
          exact hnd.1 hmk
        simp only [mapLookup, if_neg hk]
        exact ih hnd.2 hm

theorem mapLookup_mapExtend_of_none {β : Type} (m2 : List (String × β)) :
    ∀ (m : List (String × β)) (k : String), mapLookup m2 k = none →
      mapLookup (mapExtend m m2) k = mapLookup m k := by
  induction m2 with
  | nil => intro m k _; rfl
  | cons kv rest ih =>
      intro m k h
      by_cases h1 : kv.1 = k
      · simp [mapLookup, if_pos h1] at h
      · simp only [mapLookup, if_neg h1] at h
        simp only [mapExtend, List.foldl_cons]
        rw [show List.foldl (fun acc kv => mapInsert acc kv.1 kv.2)
            (mapInsert m kv.1 kv.2) rest = mapExtend (mapInsert m kv.1 kv.2) rest from rfl]
        rw [ih (mapInsert m kv.1 kv.2) k h, mapLookup_mapInsert, if_neg h1]

theorem mapLookup_mapExtend_of_some {β : Type} (m2 : List (String × β)) :
    ∀ (m : List (String × β)) (k : String) (v : β), (mapKeys m2).Nodup →
      mapLookup m2 k = some v → mapLookup (mapExtend m m2) k = some v := by
  induction m2 with
  | nil => intro m k v _ h; simp [mapLookup] at h
  | cons kv rest ih =>
      intro m k v hnd h
      simp only [mapKeys, List.map_cons, List.nodup_cons] at hnd
      simp only [mapExtend, List.foldl_cons]
      rw [show List.foldl (fun acc kv => mapInsert acc kv.1 kv.2)
          (mapInsert m kv.1 kv.2) rest = mapExtend (mapInsert m kv.1 kv.2) rest from rfl]
      by_cases h1 : kv.1 = k
      · simp only [mapLookup, if_pos h1, Option.some.injEq] at h
        have hrest : mapLookup rest k = none :=
          mapLookup_eq_none_of_not_mem rest k (h1 ▸ hnd.1)
        rw [mapLookup_mapExtend_of_none rest (mapInsert m kv.1 kv.2) k hrest,
          mapLookup_mapInsert, if_pos h1, h]
      · simp only [mapLookup, if_neg h1] at h
        exact ih (mapInsert m kv.1 kv.2) k v hnd.2 h

theorem mem_mapKeys_mapExtend {β : Type} (m2 : List (String × β)) :
    ∀ (m : List (String × β)) (a : String),
      a ∈ mapKeys (mapExtend m m2) ↔ a ∈ mapKeys m ∨ a ∈ mapKeys m2 := by
  induction m2 with
  | nil => intro m a; simp [mapExtend, mapKeys]
  | cons kv rest ih =>
      intro m a
      simp only [mapExtend, List.foldl_cons]
      rw [show List.foldl (fun acc kv => mapInsert acc kv.1 kv.2)
          (mapInsert m kv.1 kv.2) rest = mapExtend (mapInsert m kv.1 kv.2) rest from rfl]
      rw [ih, mem_mapKeys_mapInsert]
      simp only [mapKeys, List.map_cons, List.mem_cons]
      tauto

theorem nodup_mapKeys_mapExtend {β : Type} (m2 : List (String × β)) :
    ∀ m : List (String × β), (mapKeys m).Nodup → (mapKeys (mapExtend m m2)).Nodup := by
  induction m2 with
  | nil => intro m h; exact h
  | cons kv rest ih =>
      intro m h
      simp only [mapExtend, List.foldl_cons]
      exact ih (mapInsert m kv.1 kv.2) (nodup_mapKeys_mapInsert m kv.1 kv.2 h)

/-! ## Entry-update and value lemmas for the group index -/

theorem entryPushItem_eq (m : GroupIndex) (k : WorkGroupId) (item : WorkItem) :
    entryPushItem m k item = entryAppendItems m k [item] := by
  cases h : mapLookup m k <;> simp [entryPushItem, entryAppendItems, h]

theorem mem_lookupOrEmpty_entryAppendItems (m : GroupIndex) (k a : WorkGroupId)
    (vs : List WorkItem) (x : WorkItem) :
    x ∈ lookupOrEmpty (entryAppendItems m k vs) a ↔
      x ∈ lookupOrEmpty m a ∨ (a = k ∧ x ∈ vs) := by
  by_cases ha : a = k
  · subst ha
    cases h : mapLookup m a with
    | none => simp [entryAppendItems, h, lookupOrEmpty, mapLookup_mapInsert]
    | some v => simp [entryAppendItems, h, lookupOrEmpty, mapLookup_mapInsert]
  · have hka : ¬ k = a := fun e => ha e.symm
    cases h : mapLookup m k with
    | none => simp [entryAppendItems, h, lookupOrEmpty, mapLookup_mapInsert, hka, ha]
    | some v => simp [entryAppendItems, h, lookupOrEmpty, mapLookup_mapInsert, hka, ha]

theorem mem_mapKeys_entryAppendItems (m : GroupIndex) (k a : WorkGroupId)
    (vs : List WorkItem) :
    a ∈ mapKeys (entryAppendItems m k vs) ↔ a ∈ mapKeys m ∨ a = k := by
  cases h : mapLookup m k <;> simp [entryAppendItems, h, mem_mapKeys_mapInsert]

theorem nodup_mapKeys_entryAppendItems (m : GroupIndex) (k : WorkGroupId)
    (vs : List WorkItem) (h : (mapKeys m).Nodup) :
    (mapKeys (entryAppendItems m k vs)).Nodup := by
  cases hl : mapLookup m k <;> simp only [entryAppendItems, hl] <;>
    exact nodup_mapKeys_mapInsert m k _ h

theorem mem_mapValuesFlat (m : GroupIndex) (x : WorkItem) :
    x ∈ mapValuesFlat m ↔ ∃ kv ∈ m, x ∈ kv.2 := by
  induction m with
  | nil => simp [mapValuesFlat]
  | cons kv rest ih =>
      simp [mapValuesFlat, List.mem_append, ih, List.mem_cons, exists_eq_or_imp]

theorem mem_lookupOrEmpty_mapExtend_disjoint (m m2 : GroupIndex) (k : WorkGroupId)
    (x : WorkItem) (hnd2 : (mapKeys m2).Nodup)
    (hdisj : ∀ a ∈ mapKeys m2, a ∉ mapKeys m) :
    x ∈ lookupOrEmpty (mapExtend m m2) k ↔
      x ∈ lookupOrEmpty m k ∨ x ∈ lookupOrEmpty m2 k := by
  cases h2 : mapLookup m2 k with
  | none =>
      rw [lookupOrEmpty, mapLookup_mapExtend_of_none m2 m k h2]
      simp [lookupOrEmpty, h2]
  | some v =>
      rw [lookupOrEmpty, mapLookup_mapExtend_of_some m2 m k v hnd2 h2]
      have hk2 : k ∈ mapKeys m2 := mem_mapKeys_of_lookup m2 k v h2
      have hkm : mapLookup m k = none := mapLookup_eq_none_of_not_mem m k (hdisj k hk2)
      simp [lookupOrEmpty, h2, hkm]

/-! ## Reference-side helper lemmas -/

theorem leavesUnder_eq_nil : ∀ (ws : List Work) (k : WorkGroupId),
    k ∉ groupIds ws → leavesUnder k ws = []
  | [], _ => by intro _; simp [leavesUnder]
  | Work.workGroup g cs deps :: rest, k => by
      intro h
      simp only [groupIds, List.mem_cons, List.mem_append] at h
      push_neg at h
      obtain ⟨h1, h2, h3⟩ := h
      have hcs := leavesUnder_eq_nil cs k h2
      have hrest := leavesUnder_eq_nil rest k h3
      simp only [leavesUnder, hcs, hrest]
      rw [if_neg (fun e => h1 e.symm)]
      rfl
  | Work.workItem i :: rest, k => by
      intro h
      simp only [groupIds] at h
      simp only [leavesUnder]
      exact leavesUnder_eq_nil rest k h

theorem mem_allLeaves_of_leavesUnder : ∀ (ws : List Work) (k : WorkGroupId) (x : WorkItem),
    x ∈ leavesUnder k ws → x ∈ allLeaves ws
  | [], k, x => by simp [leavesUnder]
  | Work.workGroup g cs deps :: rest, k, x => by
      intro h
      simp only [leavesUnder, List.mem_append] at h
      simp only [allLeaves, List.mem_append]
      rcases h with (h | h) | h
      · by_cases hg : g = k
        · rw [if_pos hg] at h
          exact Or.inl h
        · rw [if_neg hg] at h
          simp at h
      · exact Or.inl (mem_allLeaves_of_leavesUnder cs k x h)
      · exact Or.inr (mem_allLeaves_of_leavesUnder rest k x h)
  | Work.workItem i :: rest, k, x => by
      intro h
      simp only [leavesUnder] at h
      simp only [allLeaves, List.mem_cons]
      exact Or.inr (mem_allLeaves_of_leavesUnder rest k x h)

/-! ## Characterization of the group-index builder -/

theorem mapKeys_fwi_subset : ∀ (ws : List Work) (gid : WorkGroupId) (index : GroupIndex)
    (a : String), a ∈ mapKeys (find_work_items_for_a_group gid ws index) →
    a ∈ mapKeys index ∨ a = gid ∨ a ∈ groupIds ws
  | [], gid, index, a => by
      intro h
      simp only [find_work_items_for_a_group] at h
      exact Or.inl h
  | Work.workItem item :: rest, gid, index, a => by
      intro h
      simp only [find_work_items_for_a_group] at h
      rcases mapKeys_fwi_subset rest gid (entryPushItem index gid item) a h with h1 | h1 | h1
      · rw [entryPushItem_eq] at h1
        rcases (mem_mapKeys_entryAppendItems index gid a [item]).1 h1 with h2 | h2
        · exact Or.inl h2
        · exact Or.inr (Or.inl h2)
      · exact Or.inr (Or.inl h1)
      · refine Or.inr (Or.inr ?_)
        simp only [groupIds]
        exact h1
  | Work.workGroup gid2 children2 deps2 :: rest, gid, index, a => by
      intro h
      simp only [find_work_items_for_a_group] at h
      rcases mapKeys_fwi_subset rest gid _ a h with h1 | h1 | h1
      · rw [mem_mapKeys_mapExtend] at h1
        rcases h1 with h2 | h2
        · rcases (mem_mapKeys_entryAppendItems index gid a _).1 h2 with h3 | h3
          · exact Or.inl h3
          · exact Or.inr (Or.inl h3)
        · rcases mapKeys_fwi_subset children2 gid2 [] a h2 with h3 | h3 | h3
          · simp [mapKeys] at h3
          · refine Or.inr (Or.inr ?_)
            simp only [groupIds, List.mem_cons]
            exact Or.inl h3
          · refine Or.inr (Or.inr ?_)
            simp only [groupIds, List.mem_cons, List.mem_append]
            exact Or.inr (Or.inl h3)
      · exact Or.inr (Or.inl h1)
      · refine Or.inr (Or.inr ?_)
        simp only [groupIds, List.mem_cons, List.mem_append]
        exact Or.inr (Or.inr h1)

theorem nodup_mapKeys_fwi : ∀ (ws : List Work) (gid : WorkGroupId) (index : GroupIndex),
    (mapKeys index).Nodup → (mapKeys (find_work_items_for_a_group gid ws index)).Nodup
  | [], gid, index => by
      intro h
      simpa only [find_work_items_for_a_group] using h
  | Work.workItem item :: rest, gid, index => by
      intro h
      simp only [find_work_items_for_a_group]
      refine nodup_mapKeys_fwi rest gid _ ?_
      rw [entryPushItem_eq]
      exact nodup_mapKeys_entryAppendItems index gid [item] h
  | Work.workGroup gid2 children2 deps2 :: rest, gid, index => by
      intro h
      simp only [find_work_items_for_a_group]
      refine nodup_mapKeys_fwi rest gid _ ?_
      exact nodup_mapKeys_mapExtend _ _ (nodup_mapKeys_entryAppendItems index gid _ h)

set_option maxHeartbeats 1000000 in
theorem mem_lookupOrEmpty_fwi : ∀ (ws : List Work) (gid : WorkGroupId) (index : GroupIndex)
    (k : WorkGroupId) (x : WorkItem),
    (groupIds ws).Nodup → gid ∉ groupIds ws →
    (∀ a ∈ mapKeys index, a = gid ∨ a ∉ groupIds ws) →
    (x ∈ lookupOrEmpty (find_work_items_for_a_group gid ws index) k ↔
      x ∈ lookupOrEmpty index k ∨ (k = gid ∧ x ∈ allLeaves ws) ∨ x ∈ leavesUnder k ws)
  | [], gid, index, k, x => by
      intro _ _ _
      simp only [find_work_items_for_a_group]
      simp [allLeaves, leavesUnder]
  | Work.workItem item :: rest, gid, index, k, x => by
      intro hnd hgid hkeys
      simp only [groupIds] at hnd hgid hkeys
      simp only [find_work_items_for_a_group]
      have hkeys2 : ∀ a ∈ mapKeys (entryPushItem index gid item),
          a = gid ∨ a ∉ groupIds rest := by
        intro a ha
        rw [entryPushItem_eq] at ha
        rcases (mem_mapKeys_entryAppendItems index gid a [item]).1 ha with h2 | h2
        · exact hkeys a h2
        · exact Or.inl h2
      have hrec := mem_lookupOrEmpty_fwi rest gid (entryPushItem index gid item) k x
        hnd hgid hkeys2
      rw [hrec, entryPushItem_eq, mem_lookupOrEmpty_entryAppendItems]
      simp only [allLeaves, leavesUnder, List.mem_cons, List.mem_singleton]
      tauto
  | Work.workGroup gid2 children2 deps2 :: rest, gid, index, k, x => by
      intro hnd hgid hkeys
      simp only [groupIds, List.mem_cons, List.mem_append] at hgid hkeys
      push_neg at hgid
      obtain ⟨hgid2, hgidcs, hgidrest⟩ := hgid
      simp only [groupIds] at hnd
      rw [List.nodup_cons, List.mem_append, List.nodup_append] at hnd
      push_neg at hnd
      obtain ⟨⟨hg2cs, hg2rest⟩, hndcs, hndrest, hdisjcr⟩ := hnd
      simp only [find_work_items_for_a_group]
      have hc := fun (k0 : WorkGroupId) (x0 : WorkItem) =>
        mem_lookupOrEmpty_fwi children2 gid2 [] k0 x0 hndcs hg2cs
          (by intro a ha; simp [mapKeys] at ha)
      have hndl : (mapKeys (find_work_items_for_a_group gid2 children2 [])).Nodup :=
        nodup_mapKeys_fwi children2 gid2 [] (by simp [mapKeys])
      have hkeysl : ∀ a ∈ mapKeys (find_work_items_for_a_group gid2 children2 []),
          a = gid2 ∨ a ∈ groupIds children2 := by
        intro a ha
        rcases mapKeys_fwi_subset children2 gid2 [] a ha with h1 | h1 | h1
        · simp [mapKeys] at h1
        · exact Or.inl h1
        · exact Or.inr h1
      have hval : ∀ x0 : WorkItem,
          x0 ∈ mapValuesFlat (find_work_items_for_a_group gid2 children2 []) ↔
            x0 ∈ allLeaves children2 := by
        intro x0
        constructor
        · intro hx
          rcases (mem_mapValuesFlat _ x0).1 hx with ⟨kv, hkv, hxkv⟩
          have hkv2 : (kv.1, kv.2) ∈ find_work_items_for_a_group gid2 children2 [] := by
            rw [Prod.mk.eta]
            exact hkv
          have hlk := lookup_of_entry_mem_nodup _ kv.1 kv.2 hndl hkv2
          have hloe : x0 ∈ lookupOrEmpty (find_work_items_for_a_group gid2 children2 []) kv.1 := by
            rw [lookupOrEmpty, hlk]
            exact hxkv
          rcases (hc kv.1 x0).1 hloe with h1 | h1 | h1
          · simp [lookupOrEmpty, mapLookup] at h1
          · exact h1.2
          · exact mem_allLeaves_of_leavesUnder children2 kv.1 x0 h1
        · intro hx
          have hloe : x0 ∈ lookupOrEmpty (find_work_items_for_a_group gid2 children2 []) gid2 :=
            (hc gid2 x0).2 (Or.inr (Or.inl ⟨rfl, hx⟩))
          rw [lookupOrEmpty] at hloe
          cases hlk : mapLookup (find_work_items_for_a_group gid2 children2 []) gid2 with
          | none =>
              rw [hlk] at hloe
              simp at hloe
          | some v =>
              rw [hlk] at hloe
              refine (mem_mapValuesFlat _ x0).2
                ⟨(gid2, v), entry_mem_of_lookup _ gid2 v hlk, ?_⟩
              simpa using hloe
      have hdisj : ∀ a ∈ mapKeys (find_work_items_for_a_group gid2 children2 []),
          a ∉ mapKeys (entryAppendItems index gid
            (mapValuesFlat (find_work_items_for_a_group gid2 children2 []))) := by
        intro a ha hmem
        rcases (mem_mapKeys_entryAppendItems index gid a _).1 hmem with h2 | h2
        · rcases hkeys a h2 with h3 | h3
          · rcases hkeysl a ha with h1 | h1
            · exact hgid2 ((h3.symm.trans h1).symm ▸ rfl)
            · exact hgidcs (h3 ▸ h1)
          · rcases hkeysl a ha with h1 | h1
            · exact h3 (Or.inl h1)
            · exact h3 (Or.inr (Or.inl h1))
        · rcases hkeysl a ha with h1 | h1
          · exact hgid2 (h2.symm.trans h1)
          · exact hgidcs (h2 ▸ h1)
      have hext := fun (k0 : WorkGroupId) (x0 : WorkItem) =>
        mem_lookupOrEmpty_mapExtend_disjoint
          (entryAppendItems index gid
            (mapValuesFlat (find_work_items_for_a_group gid2 children2 [])))
          (find_work_items_for_a_group gid2 children2 []) k0 x0 hndl hdisj
      have hkeys2 : ∀ a ∈ mapKeys (mapExtend (entryAppendItems index gid
            (mapValuesFlat (find_work_items_for_a_group gid2 children2 [])))
            (find_work_items_for_a_group gid2 children2 [])),
          a = gid ∨ a ∉ groupIds rest := by
        intro a ha
        rw [mem_mapKeys_mapExtend] at ha
        rcases ha with ha | ha
        · rcases (mem_mapKeys_entryAppendItems index gid a _).1 ha with h2 | h2
          · rcases hkeys a h2 with h3 | h3
            · exact Or.inl h3
            · right
              intro hmem
              exact h3 (Or.inr (Or.inr hmem))
          · exact Or.inl h2
        · rcases hkeysl a ha with h1 | h1
          · right
            rw [h1]
            exact hg2rest
          · right
            intro hmem
            exact hdisjcr h1 hmem
      have hrec := mem_lookupOrEmpty_fwi rest gid
        (mapExtend (entryAppendItems index gid
          (mapValuesFlat (find_work_items_for_a_group gid2 children2 [])))
          (find_work_items_for_a_group gid2 children2 [])) k x hndrest hgidrest hkeys2
      rw [hrec, hext k x, mem_lookupOrEmpty_entryAppendItems, hval x, hc k x]
      have hloenil : x ∈ lookupOrEmpty ([] : GroupIndex) k ↔ False := by
        simp [lookupOrEmpty, mapLookup]
      rw [hloenil]
      simp only [allLeaves, leavesUnder, List.mem_append, false_or]
      by_cases hk2 : gid2 = k
      · have hkg : ¬ k = gid := fun e => hgid2 (e ▸ hk2).symm
        rw [if_pos hk2]
        simp only [hkg, false_and, false_or, or_false, hk2, eq_self_iff_true, true_and]
        generalize (x ∈ lookupOrEmpty index k) = A
        generalize (x ∈ allLeaves children2) = C
        generalize (x ∈ leavesUnder k children2) = U
        generalize (x ∈ leavesUnder k rest) = S
        tauto
      · have hkne : ¬ k = gid2 := fun e => hk2 e.symm
        rw [if_neg hk2]
        simp only [List.not_mem_nil, false_or, hkne, false_and]
        generalize (x ∈ lookupOrEmpty index k) = A
        generalize (x ∈ allLeaves children2) = C
        generalize (x ∈ allLeaves rest) = R
        generalize (x ∈ leavesUnder k children2) = U
        generalize (x ∈ leavesUnder k rest) = S
        generalize (k = gid) = G
        tauto

theorem mem_lookupOrEmpty_build_go : ∀ (ws : List Work) (map : GroupIndex)
    (k : WorkGroupId) (x : WorkItem),
    (groupIds ws).Nodup →
    (∀ a ∈ mapKeys map, a ∉ groupIds ws) →
    (x ∈ lookupOrEmpty (ws.foldl
        (fun map w =>
          match w with
          | Work.workItem _ => map
          | Work.workGroup gid children _ =>
              mapExtend map (find_work_items_for_a_group gid children [])) map) k ↔
      x ∈ lookupOrEmpty map k ∨ x ∈ leavesUnder k ws) := by
  intro ws
  induction ws with
  | nil =>
      intro map k x _ _
      simp [leavesUnder]
  | cons w rest ih =>
      intro map k x hnd hmap
      cases w with
      | workItem item =>
          simp only [List.foldl_cons]
          simp only [groupIds] at hnd hmap
          rw [ih map k x hnd hmap]
          simp only [leavesUnder]
      | workGroup gid cs deps =>
          simp only [List.foldl_cons]
          simp only [groupIds, List.mem_cons, List.mem_append] at hmap
          simp only [groupIds] at hnd
          rw [List.nodup_cons, List.mem_append, List.nodup_append] at hnd
          push_neg at hnd
          obtain ⟨⟨hgcs, hgrest⟩, hndcs, hndrest, hdisjcr⟩ := hnd
          have hfind := fun (x0 : WorkItem) =>
            mem_lookupOrEmpty_fwi cs gid [] k x0 hndcs hgcs
              (by intro a ha; simp [mapKeys] at ha)
          have hndl : (mapKeys (find_work_items_for_a_group gid cs [])).Nodup :=
            nodup_mapKeys_fwi cs gid [] (by simp [mapKeys])
          have hkeysl : ∀ a ∈ mapKeys (find_work_items_for_a_group gid cs []),
              a = gid ∨ a ∈ groupIds cs := by
            intro a ha
            rcases mapKeys_fwi_subset cs gid [] a ha with h1 | h1 | h1
            · simp [mapKeys] at h1
            · exact Or.inl h1
            · exact Or.inr h1
          have hdisj : ∀ a ∈ mapKeys (find_work_items_for_a_group gid cs []),
              a ∉ mapKeys map := by
            intro a ha hmem
            rcases hkeysl a ha with h1 | h1
            · exact hmap a hmem (Or.inl h1)
            · exact hmap a hmem (Or.inr (Or.inl h1))
          have hext := mem_lookupOrEmpty_mapExtend_disjoint map
            (find_work_items_for_a_group gid cs []) k x hndl hdisj
          have hmap2 : ∀ a ∈ mapKeys (mapExtend map (find_work_items_for_a_group gid cs [])),
              a ∉ groupIds rest := by
            intro a ha
            rw [mem_mapKeys_mapExtend] at ha
            rcases ha with ha | ha
            · intro hmem
              exact hmap a ha (Or.inr (Or.inr hmem))
            · rcases hkeysl a ha with h1 | h1
              · rw [h1]
                exact hgrest
              · intro hmem
                exact hdisjcr h1 hmem
          rw [ih (mapExtend map (find_work_items_for_a_group gid cs [])) k x hndrest hmap2]
          rw [hext, hfind x]
          have hloenil : x ∈ lookupOrEmpty ([] : GroupIndex) k ↔ False := by
            simp [lookupOrEmpty, mapLookup]
          rw [hloenil]
          simp only [leavesUnder, List.mem_append, false_or]
          by_cases hk : gid = k
          · rw [if_pos hk]
            have hkg : (k = gid) = True := by simp [hk.symm]
            rw [hkg]
            simp only [true_and]
            generalize (x ∈ lookupOrEmpty map k) = A
            generalize (x ∈ allLeaves cs) = C
            generalize (x ∈ leavesUnder k cs) = U
            generalize (x ∈ leavesUnder k rest) = S
            tauto
          · rw [if_neg hk]
            have hkg : (k = gid) = False := by
              simp only [eq_iff_iff, iff_false]
              exact fun e => hk e.symm
            rw [hkg]
            simp only [false_and, false_or, List.not_mem_nil]
            generalize (x ∈ lookupOrEmpty map k) = A
            generalize (x ∈ leavesUnder k cs) = U
            generalize (x ∈ leavesUnder k rest) = S
            tauto

/-! ## Characterization of the by-id index -/

/-- First option if present, otherwise the second: the shape the repeated
`insert` of the by-id builder leaves a lookup in. -/
def optOr (a b : Option WorkItem) : Option WorkItem :=
  match a with
  | some v => some v
  | none => b

/-- The last leaf item with a given id in a list: the value the repeated
`insert` of the by-id builder leaves in the map under that id. -/
def lastWithId (k : WorkItemId) (l : List WorkItem) : Option WorkItem :=
  l.foldl (fun r i => if i.id = k then some i else r) none

theorem optOr_assoc (a b c : Option WorkItem) :
    optOr (optOr a b) c = optOr a (optOr b c) := by
  cases a <;> rfl

theorem foldl_lastWithId (k : WorkItemId) : ∀ (l : List WorkItem) (r : Option WorkItem),
    l.foldl (fun r i => if i.id = k then some i else r) r = optOr (lastWithId k l) r := by
  intro l
  induction l with
  | nil => intro r; rfl
  | cons i t ih =>
      intro r
      simp only [List.foldl_cons]
      rw [ih]
      have hcons : lastWithId k (i :: t) =
          optOr (lastWithId k t) (if i.id = k then some i else none) := by
        simp only [lastWithId, List.foldl_cons]
        exact ih _
      rw [hcons]
      cases lastWithId k t with
      | some v => rfl
      | none => by_cases hik : i.id = k <;> simp [optOr, hik]

theorem lastWithId_cons (k : WorkItemId) (i : WorkItem) (t : List WorkItem) :
    lastWithId k (i :: t) = optOr (lastWithId k t) (if i.id = k then some i else none) := by
  simp only [lastWithId, List.foldl_cons]
  exact foldl_lastWithId k t _

theorem lastWithId_append (k : WorkItemId) (l1 l2 : List WorkItem) :
    lastWithId k (l1 ++ l2) = optOr (lastWithId k l2) (lastWithId k l1) := by
  simp only [lastWithId, List.foldl_append]
  exact foldl_lastWithId k l2 _

theorem mapLookup_byid : ∀ (ws : List Work) (acc : ByIdMap) (k : WorkItemId),
    mapLookup (build_items_by_id_index_prime ws acc) k =
      optOr (lastWithId k (allLeaves ws)) (mapLookup acc k)
  | [], acc, k => by
      simp only [build_items_by_id_index_prime]
      simp [allLeaves, lastWithId, optOr]
  | Work.workItem item :: rest, acc, k => by
      simp only [build_items_by_id_index_prime]
      rw [mapLookup_byid rest (mapInsert acc item.id item) k]
      rw [mapLookup_mapInsert]
      have hal : allLeaves (Work.workItem item :: rest) = item :: allLeaves rest := by
        simp [allLeaves]
      rw [hal, lastWithId_cons]
      cases lastWithId k (allLeaves rest) with
      | some v => rfl
      | none => by_cases hik : item.id = k <;> simp [optOr, hik]
  | Work.workGroup g cs deps :: rest, acc, k => by
      simp only [build_items_by_id_index_prime]
      rw [mapLookup_byid rest (build_items_by_id_index_prime cs acc) k,
        mapLookup_byid cs acc k]
      have hal : allLeaves (Work.workGroup g cs deps :: rest) =
          allLeaves cs ++ allLeaves rest := by
        simp [allLeaves]
      rw [hal, lastWithId_append, optOr_assoc]

theorem lastWithId_none (k : WorkItemId) : ∀ l : List WorkItem,
    (∀ j ∈ l, j.id ≠ k) → lastWithId k l = none := by
  intro l
  induction l with
  | nil => intro _; rfl
  | cons i t ih =>
      intro h
      rw [lastWithId_cons, ih (fun j hj => h j (List.mem_cons_of_mem i hj))]
      rw [if_neg (h i (List.mem_cons_self i t))]
      rfl

theorem lastWithId_of_nodup : ∀ l : List WorkItem, (l.map WorkItem.id).Nodup →
    ∀ it ∈ l, lastWithId it.id l = some it := by
  intro l
  induction l with
  | nil =>
      intro _ it hit
      simp at hit
  | cons i t ih =>
      intro hnd it hit
      simp only [List.map_cons, List.nodup_cons] at hnd
      rcases List.mem_cons.1 hit with h | hmem
      · subst h
        rw [lastWithId_cons]
        have hnone : lastWithId it.id t = none := by
          apply lastWithId_none
          intro j hj e
          exact hnd.1 (e ▸ List.mem_map_of_mem WorkItem.id hj)
        rw [hnone, if_pos rfl]
        rfl
      · rw [lastWithId_cons, ih hnd.2 it hmem]
        rfl

/-- Two distinct top-level leaf items sharing the id `a` (group ids — there
are none — are trivially unique). -/
def simDupIds : Simulation :=
  ⟨[Work.workItem ⟨"a", [], ["s1"]⟩, Work.workItem ⟨"a", [], ["s2"]⟩]⟩

/-- A single group `g` containing the single leaf item `i`. -/
def simGroupW : Simulation :=
  ⟨[Work.workGroup "g" [Work.workItem ⟨"i", [], []⟩] []]⟩

/-- C7 (counterexample): in a simulation with unique group ids but a
duplicated leaf item id, the by-id index does not map the first leaf item id
to that leaf item — the later insertion overwrote it — so the claim as
stated fails. -/
theorem c7_duplicate_item_ids_counterexample :
    (groupIds simDupIds.work).Nodup ∧
    (⟨"a", [], ["s1"]⟩ : WorkItem) ∈ allLeaves simDupIds.work ∧
    mapLookup (sim_to_indexes simDupIds).work_items_by_id "a" ≠
      some (⟨"a", [], ["s1"]⟩ : WorkItem) := by
  refine ⟨?_, ?_, ?_⟩
  · simp [simDupIds, groupIds]
  · simp [simDupIds, allLeaves]
  · have h : mapLookup (sim_to_indexes simDupIds).work_items_by_id "a" =
        some (⟨"a", [], ["s2"]⟩ : WorkItem) := by
      simp [simDupIds, sim_to_indexes, build_items_by_id_index,
        build_items_by_id_index_prime, mapInsert, mapLookup]
    rw [h]
    decide

/-- C7 (amended): for every simulation with unique group ids, the group
index, read with an absent entry as the empty set, associates to each group
id exactly the leaf items nested transitively beneath that group, including
leaves under nested sub-groups; and when the leaf item ids are additionally
unique, the by-id index maps every leaf item id to that leaf item. -/
theorem c7_indexes_characterization (sim : Simulation)
    (hg : (groupIds sim.work).Nodup) :
    (∀ (gid : WorkGroupId) (x : WorkItem),
        x ∈ lookupOrEmpty (sim_to_indexes sim).work_items_for_group gid ↔
          x ∈ leavesUnder gid sim.work) ∧
    (((allLeaves sim.work).map WorkItem.id).Nodup →
      ∀ it ∈ allLeaves sim.work,
        mapLookup (sim_to_indexes sim).work_items_by_id it.id = some it) := by
  constructor
  · intro gid x
    have h := mem_lookupOrEmpty_build_go sim.work [] gid x hg
      (by intro a ha; simp [mapKeys] at ha)
    have hloenil : x ∈ lookupOrEmpty ([] : GroupIndex) gid ↔ False := by
      simp [lookupOrEmpty, mapLookup]
    rw [show (sim_to_indexes sim).work_items_for_group = sim.work.foldl
        (fun map w =>
          match w with
          | Work.workItem _ => map
          | Work.workGroup gid children _ =>
              mapExtend map (find_work_items_for_a_group gid children [])) [] from rfl]
    rw [h, hloenil]
    simp
  · intro hnd it hit
    rw [show (sim_to_indexes sim).work_items_by_id =
        build_items_by_id_index_prime sim.work [] from rfl]
    rw [mapLookup_byid sim.work [] it.id,
      lastWithId_of_nodup (allLeaves sim.work) hnd it hit]
    rfl

/-- Witness for C7 (amended) at a concrete one-group simulation. -/
theorem c7_indexes_characterization_witness :
    (⟨"i", [], []⟩ : WorkItem) ∈
        lookupOrEmpty (sim_to_indexes simGroupW).work_items_for_group "g" ∧
    mapLookup (sim_to_indexes simGroupW).work_items_by_id "i" =
      some (⟨"i", [], []⟩ : WorkItem) := by
  have h := c7_indexes_characterization simGroupW (by simp [simGroupW, groupIds])
  constructor
  · exact (h.1 "g" ⟨"i", [], []⟩).mpr (by simp [simGroupW, leavesUnder, allLeaves])
  · exact h.2 (by simp [simGroupW, allLeaves]) ⟨"i", [], []⟩ (by simp [simGroupW, allLeaves])

end Lectev
